import Mathlib

/-!
Verification development for the djredis sharded cache client.

The Python sources are shallowly embedded below:
* `djredis/utils/pickle.py` — the value codec (`dumps` / `loads`);
* `djredis/utils/hashring.py` — the consistent hash ring;
* `djredis/client.py` — the ring routing client (`get_cache_key`,
  `_tag_route`, `__getattr__` dispatch, `delete_tag`, sentinel bootstrap);
* `djredis/cache.py` — the cache facade (`_set`, `incr`).

Modelling conventions:
* Python ints are modelled as unbounded `Int`; finite Python floats are
  modelled as rationals (`ℚ`), which supports `int(f) == f` exactly;
  non-numeric picklable values are modelled opaquely.
* `pickle.dumps` output and zlib output are byte strings that never parse
  as decimal integers (true of pickle protocols 0-2 and of the zlib
  framing byte 0x78), so the decoder's `int(value)` attempt fails on them.
* Exceptions are modelled with `Except`; the error constructors mirror the
  Python exception classes raised by the source.
* MD5 hex digests are modelled as an abstract hash function
  `H : String → Nat`: digests of `hashlib.md5` are fixed-length hex
  strings, whose Python (lexicographic) order coincides with the numeric
  order of the 128-bit values, so a `Nat`-valued hash is order-faithful.
-/

/-- A Python runtime value, as far as the codec distinguishes values:
`vint` is a Python `int`, `vbool` a `bool` (which `isinstance(·, int)`
accepts, since `bool` subclasses `int`), `vfloat` a finite `float`
(modelled as a rational), `vstr` a `str`, `vother` any other picklable
object, and `vbad` an object whose pickling raises `PickleError` (such as
the `Unpickable` helper in the repository's test-suite). -/
inductive PyVal where
  | vint (n : Int)
  | vbool (b : Bool)
  | vfloat (q : ℚ)
  | vstr (s : String)
  | vother (id : Nat)
  | vbad (id : Nat)
deriving DecidableEq

/-- Errors raised by the embedded code.  `valueError`, `attributeError` and
`typeError` are the Python builtins; `pickleError`, `zlibError` and
`unpickleError` come from the codec libraries; the remaining constructors
mirror `djredis/errors.py` (`InvalidKey`, `MastersListUnavailable`,
`NoMastersConfigured`).  `unmodelled` marks driver calls outside the
modelled command subset; no reachable branch of any theorem below produces
it. -/
inductive PyErr where
  | valueError
  | attributeError
  | typeError
  | pickleError
  | zlibError
  | unpickleError
  | invalidKey
  | mastersListUnavailable
  | noMastersConfigured
  | unmodelled
deriving DecidableEq

/-- The value produced by `dumps` (and accepted by `loads`): `int` is a
Python integer returned unpickled, `bool` a Python boolean returned
unpickled (first branch of `dumps`, since `bool` subclasses `int`),
`pickled v` the pickle byte string of `v`, `zipped v` that byte string
zlib-compressed, and `bytes s` a raw byte string (the on-the-wire form a
value has when it comes back from the server). -/
inductive Enc where
  | int (n : Int)
  | bool (b : Bool)
  | pickled (v : PyVal)
  | zipped (v : PyVal)
  | bytes (s : String)
deriving DecidableEq

/-- Python `int(f)` on a finite float: truncation toward zero.  On a
rational `q = num/den` (with `den > 0`) this is T-division of `num` by
`den`. -/
def pyTruncInt (q : ℚ) : Int :=
  Int.tdiv q.num (q.den : Int)

/-- Embedding of `dumps` from `djredis/utils/pickle.py`: integers (and
booleans, which pass `isinstance(value, int)`) are returned as-is; a float
equal to its integer cast is returned as that integer; everything else is
pickled and, when `compress` is set, zlib-compressed; unpicklable values
raise `PickleError`. -/
def dumps (value : PyVal) (compress : Bool) : Except PyErr Enc :=
  match value with
  | .vint n => .ok (.int n)
  | .vbool b => .ok (.bool b)
  | .vfloat q =>
    if ((pyTruncInt q : ℚ) = q) then .ok (.int (pyTruncInt q))
    else .ok (if compress then .zipped (.vfloat q) else .pickled (.vfloat q))
  | .vstr s => .ok (if compress then .zipped (.vstr s) else .pickled (.vstr s))
  | .vother i => .ok (if compress then .zipped (.vother i) else .pickled (.vother i))
  | .vbad _ => .error .pickleError

/-- Python `int(s)` on a byte string: an optional sign followed by decimal
digits (surrounding whitespace tolerance is omitted); `none` when the
string does not parse. -/
def pyParseInt (s : String) : Option Int :=
  let digits : List Char → Option Int := fun ds =>
    if ds ≠ [] ∧ ds.all Char.isDigit then
      some (Int.ofNat (ds.foldl (fun a c => a * 10 + (c.toNat - 48)) 0))
    else none
  match s.data with
  | '-' :: rest => (digits rest).map (fun n => -n)
  | '+' :: rest => digits rest
  | ds => digits ds

/-- Embedding of `loads` from `djredis/utils/pickle.py` on a non-`None`
value: first try `int(value)` (succeeds on integers and booleans, and on a
byte string of decimal digits; pickle and zlib byte strings never parse);
then, when `compress` is set, zlib-decompress; finally unpickle.
Decompressing a non-zlib string and unpickling a non-pickle string
raise. -/
def loads (value : Enc) (compress : Bool) : Except PyErr PyVal :=
  match value with
  | .int n => .ok (.vint n)
  | .bool b => .ok (.vint (if b then 1 else 0))
  | .bytes s =>
    match pyParseInt s with
    | some n => .ok (.vint n)
    | none => .error (if compress then .zlibError else .unpickleError)
  | .pickled v => if compress then .error .zlibError else .ok v
  | .zipped v => if compress then .ok v else .error .unpickleError

/-- Embedding of `loads` including its `None` short-circuit (`if value is
None: return None`). -/
def loadsOpt (value : Option Enc) (compress : Bool) : Except PyErr (Option PyVal) :=
  match value with
  | none => .ok none
  | some e => (loads e compress).map some

/-- Python `==` on the embedded values: numeric types compare by value
across `int`/`bool`/`float` (`1 == True`, `2 == 2.0`), everything else by
its own notion of equality, and values of unrelated types are unequal. -/
def pyEq : PyVal → PyVal → Bool
  | .vint m, .vint n => m == n
  | .vint m, .vbool b => m == (if b then 1 else 0)
  | .vbool b, .vint n => (if b then (1 : Int) else 0) == n
  | .vbool a, .vbool b => a == b
  | .vint m, .vfloat q => (m : ℚ) == q
  | .vfloat q, .vint n => q == (n : ℚ)
  | .vfloat p, .vfloat q => p == q
  | .vbool b, .vfloat q => (if b then (1 : ℚ) else 0) == q
  | .vfloat q, .vbool b => q == (if b then (1 : ℚ) else 0)
  | .vstr s, .vstr t => s == t
  | .vother i, .vother j => i == j
  | .vbad i, .vbad j => i == j
  | _, _ => false

/-- Embedding of `BaseCache.make_key`: the storage key
`"%s:%s:%s" % (key_prefix, version, key)` (Django's default
`KEY_FUNCTION`, applied by `RedisCache.make_key`). -/
def make_key (pre : String) (version : Int) (key : String) : String :=
  pre ++ ":" ++ toString version ++ ":" ++ key

/-- The `timeout` argument of the facade's `set`/`add`: the
`DEFAULT_TIMEOUT` sentinel object, `None`, or a number of seconds (floats
are truncated to `int` by `get_backend_timeout`, so the embedding carries
the truncated integer). -/
inductive TimeoutArg where
  | default
  | noneArg
  | secs (t : Int)
deriving DecidableEq

/-- Embedding of `RedisCache.get_backend_timeout`: the sentinel selects
`self.default_timeout`, `None` stays `None`, a number is truncated to
`int`. -/
def get_backend_timeout (default_timeout : Option Int) : TimeoutArg → Option Int
  | .default => default_timeout
  | .noneArg => none
  | .secs t => some t

/-- Embedding of `RedisCache._set` (the common body of the facade's `set`
and `add`), parametrised over the routed `client.set` call (`doSet key
value add_only ex`).  The source computes the backend timeout, then
encodes the value — so an encoding error escapes before the
`timeout <= 0` guard — and only then returns `False` without storing when
the timeout is non-`None` and `<= 0`. -/
def cache_set (doSet : String → Enc → Bool → Option Int → Except PyErr Bool)
    (compress : Bool) (pre : String) (default_timeout : Option Int)
    (key : String) (value : PyVal) (timeout : TimeoutArg) (version : Int)
    (add_only : Bool) : Except PyErr Bool :=
  let t := get_backend_timeout default_timeout timeout
  match dumps value compress with
  | .error e => .error e
  | .ok _enc =>
    if (match t with | some s => decide (s ≤ 0) | none => false) then .ok false
    else doSet (make_key pre version key) _enc add_only t

/-- Index of the last occurrence of `c` in `s`, if any. -/
def lastIndexOf (c : Char) : List Char → Option Nat
  | [] => none
  | a :: rest =>
    match lastIndexOf c rest with
    | some i => some (i + 1)
    | none => if a = c then some 0 else none

/-- Python `re.match` of the tag pattern (first group).  The pattern is
the default `DJREDIS_TAG_REGEX` from `djredis/conf.py`, a greedy
leading wildcard, an opening brace, a greedy group, a closing brace and a
trailing wildcard.  Backtracking maximises the leading wildcard first and
the group second, so a match picks the last opening brace that still has
a closing brace after it, and the group runs to the last closing brace of
the string; `none` when no opening brace precedes a closing brace. -/
def pyTagMatch (s : List Char) : Option (List Char) :=
  match lastIndexOf '\x7d' s with
  | none => none
  | some j =>
    match lastIndexOf '\x7b' (s.take j) with
    | none => none
    | some i => some ((s.take j).drop (i + 1))

/-- Whether the tag regex matches the string (used by `delete_tag` to
reject tags that themselves contain a brace group). -/
def tagRegexMatches (s : String) : Bool :=
  (pyTagMatch s.data).isSome

/-- The bucket literal for a tag: the Python `'{%s}' % tag`. -/
def mkBucket (tag : String) : String :=
  String.mk ('\x7b' :: (tag.data ++ ['\x7d']))

/-- Embedding of `RingClient.get_cache_key`: with tagging enabled, a key
matching the tag regex is replaced by its bucket `'{%s}' % match.group(1)`;
otherwise (no match, or tagging disabled) the key itself. -/
def get_cache_key (tagging : Bool) (key : String) : String :=
  if tagging then
    match pyTagMatch key.data with
    | some g => String.mk ('\x7b' :: (g ++ ['\x7d']))
    | none => key
  else key

/-- One primitive command issued to a backend node: the owning node's
name, the driver method invoked, and its positional arguments. -/
structure Call where
  node : String
  method : String
  args : List String
deriving DecidableEq

/-- `RingClient.BROADCAST_METHODS`. -/
def BROADCAST_METHODS : List String := ["dbsize", "flushdb", "info", "ping"]

/-- `RingClient.ROUTE_METHODS`. -/
def ROUTE_METHODS : List String := ["getset", "lock"]

/-- `RingClient.TAG_ROUTE_METHODS`. -/
def TAG_ROUTE_METHODS : List String := ["exists", "get", "incrby", "set", "setnx"]

/-- The three generic dispatchers of `RingClient.__getattr__`. -/
inductive Dispatch where
  | broadcast
  | route
  | tagRoute
deriving DecidableEq

/-- Embedding of `RingClient.__getattr__`: an attribute not defined on the
class is served by `_broadcast`, `_route` or `_tag_route` according to the
three method sets, and otherwise raises `AttributeError` (`none`). -/
def ringGetattr (attr : String) : Option Dispatch :=
  if attr ∈ BROADCAST_METHODS then some .broadcast
  else if attr ∈ ROUTE_METHODS then some .route
  else if attr ∈ TAG_ROUTE_METHODS then some .tagRoute
  else none

/-- Embedding of `RingClient._tag_route` as the primitive call it issues.
`owner` abstracts `self.get_node` (the hash-ring lookup composed with
`name_to_node`); `arg0` is `args[0]` and `rest` the remaining positional
arguments.  When the key rewrites to a different bucket, the analogous
hashes command (`'h' + attr`) is called with the bucket inserted at
position 0; either way the call goes to the node owning the cache key. -/
def tag_route (tagging : Bool) (owner : String → String) (attr : String)
    (arg0 : String) (rest : List String) : Call :=
  let cache_key := get_cache_key tagging arg0
  if cache_key ≠ arg0 then
    ⟨owner cache_key, "h" ++ attr, cache_key :: arg0 :: rest⟩
  else
    ⟨owner cache_key, attr, arg0 :: rest⟩

/-- The validation loop of `RingClient.delete_tag`: walk the tags in
order, raise `InvalidKey` at the first tag the tag regex matches, and
otherwise collect the bucket literals `'{%s}' % tag`. -/
def buildBuckets : List String → Except PyErr (List String)
  | [] => .ok []
  | t :: rest =>
    if tagRegexMatches t then .error .invalidKey
    else
      match buildBuckets rest with
      | .error e => .error e
      | .ok bs => .ok (mkBucket t :: bs)

/-- Append `k` to the group of node `n`, creating the group when absent
(the `defaultdict(list)` grouping of `delete_tag`). -/
def addToGroup : List (String × List String) → String → String → List (String × List String)
  | [], n, k => [(n, [k])]
  | g :: rest, n, k =>
    if g.1 = n then (g.1, g.2 ++ [k]) :: rest else g :: addToGroup rest n k

/-- Group keys by owning node, preserving first-appearance order of
nodes (the iteration order of the groups is irrelevant to the results
proved below). -/
def groupByNode (owner : String → String) (keys : List String) : List (String × List String) :=
  keys.foldl (fun acc k => addToGroup acc (owner k) k) []

/-- Redis `DEL k1 k2 …` against a key-existence predicate: each named key
is deleted in turn and the reply counts the keys that actually existed
(a duplicate name counts only once). -/
def delCount (store : String → Bool) : List String → Nat
  | [] => 0
  | k :: rest =>
    (if store k then 1 else 0) +
      delCount (fun x => if x = k then false else store x) rest

/-- Embedding of `RingClient.delete_tag`.  With tagging disabled it
returns `None` immediately (no validation, no node calls).  Otherwise it
validates the tags and builds the bucket literals (`buildBuckets`), groups
the buckets by owning node, issues one `del` per node with that node's
buckets, and returns the summed delete counts.  The result pairs the
Python return value with the list of issued calls; `store` is the
key-existence predicate of the backends (bucket keys of distinct nodes
are distinct, so a single predicate is faithful). -/
def delete_tag (tagging : Bool) (owner : String → String) (store : String → Bool)
    (tags : List String) : Except PyErr (Option Nat × List Call) :=
  if !tagging then .ok (none, [])
  else
    match buildBuckets tags with
    | .error e => .error e
    | .ok keys_to_delete =>
      let groups := groupByNode owner keys_to_delete
      .ok (some ((groups.map (fun g => delCount store g.2)).sum),
           groups.map (fun g => ⟨g.1, "del", g.2⟩))

/-- The flat and hash keyspaces of the backend ring, as far as `exists`
needs them: `flat k` is the stored string at plain key `k`, `hmap b f`
the stored string at field `f` of the hash at key `b`. -/
structure Store where
  flat : String → Option String
  hmap : String → String → Option String

/-- The routed `client.exists(key)` call: `exists` is in
`TAG_ROUTE_METHODS`, so `_tag_route` either checks the plain key or, for
a tagged key, runs `hexists` on the bucket with the key as field. -/
def clientExists (tagging : Bool) (st : Store) (key : String) : Bool :=
  let cache_key := get_cache_key tagging key
  if cache_key ≠ key then (st.hmap cache_key key).isSome
  else (st.flat key).isSome

/-- Embedding of `RedisCache.incr`: make the storage key, check
`client.exists`, raise `ValueError` when the key is absent, and otherwise
call `self.client.incr(key, delta)`.  `RingClient` defines no `incr`
method and none of `BROADCAST_METHODS`/`ROUTE_METHODS`/`TAG_ROUTE_METHODS`
contains `"incr"` (only `"incrby"`), so that attribute lookup is resolved
by `ringGetattr`; its `some` branch (a successful dispatch, outside the
modelled fragment) is unreachable because `ringGetattr "incr" = none`. -/
def cache_incr (tagging : Bool) (st : Store) (pre : String) (version : Int)
    (key : String) (delta : Int) : Except PyErr Int :=
  let k := make_key pre version key
  if clientExists tagging st k then
    match ringGetattr "incr" with
    | none => .error .attributeError
    | some _ => .error .unmodelled
  else .error .valueError

/-- A store holding the single plain key `":1:n"` with value `"41"`
(the state after `set("n", 41)` with the default empty prefix and
version 1). -/
def store41 : Store :=
  ⟨fun k => if k = ":1:n" then some "41" else none, fun _ _ => none⟩

/-- A store holding nothing. -/
def emptyStore : Store :=
  ⟨fun _ => none, fun _ _ => none⟩

/-- Embedding of the bootstrap loop of `SentinelBackedRingClient.__init__`
over the per-supervisor outcomes, in the order produced by the initial
shuffle: `none` is a supervisor that raised `RedisError`, `some ms` a
successful `sentinel masters` reply listing master names `ms`.  The loop
takes the first successful reply; if none, `MastersListUnavailable`; if
the first successful reply is empty, `NoMastersConfigured`. -/
def bootstrap_masters : List (Option (List String)) → Except PyErr (List String)
  | [] => .error .mastersListUnavailable
  | none :: rest => bootstrap_masters rest
  | some ms :: _ => if ms.length = 0 then .error .noMastersConfigured else .ok ms

/-- The virtual-node key `'%s:%s' % (str(node), virtual_node)` hashed by
`HashRing._generate_hash`. -/
def virtualKey (node : String) (i : Nat) : String :=
  node ++ ":" ++ toString i

/-- The `num_virtual_nodes` hash positions of one node, in loop order. -/
def nodeHashes (H : String → Nat) (V : Nat) (node : String) : List Nat :=
  (List.range V).map (fun i => H (virtualKey node i))

/-- Python `dict.__setitem__` on an association list: overwrite the
binding when the key is present, append it otherwise. -/
def dictInsert (k : Nat) (v : String) : List (Nat × String) → List (Nat × String)
  | [] => [(k, v)]
  | p :: rest => if p.1 = k then (k, v) :: rest else p :: dictInsert k v rest

/-- Python `dict.__delitem__` on an association list (no-op when the key
is absent; in the source an absent key would raise `KeyError`, a case the
ring invariant excludes). -/
def dictRemove (k : Nat) : List (Nat × String) → List (Nat × String)
  | [] => []
  | p :: rest => if p.1 = k then rest else p :: dictRemove k rest

/-- Python `dict.__getitem__` on an association list (`none` stands for
`KeyError`). -/
def dictGet (k : Nat) : List (Nat × String) → Option String
  | [] => none
  | p :: rest => if p.1 = k then some p.2 else dictGet k rest

/-- `bisect.insort` (right variant): insert `x` after any elements equal
to it, preserving sortedness. -/
def insort (x : Nat) : List Nat → List Nat
  | [] => [x]
  | a :: l => if x < a then x :: a :: l else a :: insort x l

/-- `bisect.bisect` (alias `bisect_right`): on a sorted list, the number
of elements `≤ x`, i.e. the insertion point after any elements equal to
`x`. -/
def bisect_right (x : Nat) : List Nat → Nat
  | [] => 0
  | a :: l => if x < a then 0 else bisect_right x l + 1

/-- `bisect.bisect_left`: on a sorted list, the number of elements `< x`,
i.e. the insertion point before any elements equal to `x`. -/
def bisect_left (x : Nat) : List Nat → Nat
  | [] => 0
  | a :: l => if a < x then bisect_left x l + 1 else 0

/-- The state of `HashRing`: the node set (a `Nodup` list models the
Python `set`), the virtual-node multiplicity, the `_hash_to_node` dict
and the `_sorted_virtual_nodes` sorted sequence. -/
structure HashRing where
  nodes : List String
  num_virtual_nodes : Nat
  hash_to_node : List (Nat × String)
  sorted_virtual_nodes : List Nat
deriving DecidableEq

/-- The default `num_virtual_nodes` of `HashRing.__init__`. -/
def DEFAULT_NUM_VIRTUAL_NODES : Nat := 100

/-- One iteration of the `add_node` loop: bind the hash `k` to `node` in
`_hash_to_node` and `insort` it into the sorted sequence. -/
def addStep (node : String) (s : HashRing) (k : Nat) : HashRing :=
  ⟨s.nodes, s.num_virtual_nodes, dictInsert k node s.hash_to_node,
   insort k s.sorted_virtual_nodes⟩

/-- Embedding of `HashRing.add_node`: a no-op when the node is present;
otherwise add it to the node set and, for each virtual index in order,
bind the hash in `_hash_to_node` and `insort` it into the sorted
sequence.  The loop body touches `i` only through `H (virtualKey node i)`,
so it is folded directly over `nodeHashes`. -/
def add_node (H : String → Nat) (r : HashRing) (node : String) : HashRing :=
  if node ∈ r.nodes then r
  else
    (nodeHashes H r.num_virtual_nodes node).foldl (addStep node)
      ⟨r.nodes ++ [node], r.num_virtual_nodes, r.hash_to_node, r.sorted_virtual_nodes⟩

/-- One iteration of the `remove_node` loop: delete the hash `k` from
`_hash_to_node` and delete the element at `bisect_left k` from the sorted
sequence. -/
def removeStep (s : HashRing) (k : Nat) : HashRing :=
  ⟨s.nodes, s.num_virtual_nodes, dictRemove k s.hash_to_node,
   s.sorted_virtual_nodes.eraseIdx (bisect_left k s.sorted_virtual_nodes)⟩

/-- Embedding of `HashRing.remove_node`: a no-op when the node is absent;
otherwise remove it from the node set and, for each virtual index, delete
the hash from `_hash_to_node` and delete the element at
`bisect_left hash` from the sorted sequence (the source asserts that the
element there equals the hash; under the ring invariant proved below the
assertion holds). -/
def remove_node (H : String → Nat) (r : HashRing) (node : String) : HashRing :=
  if node ∈ r.nodes then
    (nodeHashes H r.num_virtual_nodes node).foldl removeStep
      ⟨r.nodes.erase node, r.num_virtual_nodes, r.hash_to_node, r.sorted_virtual_nodes⟩
  else r

/-- Embedding of `HashRing.__init__`: start empty and `add_node` each
given node (the constructor's emptiness assertion is not needed by the
claims below). -/
def hashRingNew (H : String → Nat) (nodes : List String) (V : Nat) : HashRing :=
  nodes.foldl (fun r n => add_node H r n) ⟨[], V, [], []⟩

/-- Embedding of `HashRing.get_node`: `None` on an empty node set;
otherwise hash the query key, `bisect` the sorted sequence, wrap the
insertion point modulo the sequence length, and look the position's hash
up in `_hash_to_node`. -/
def get_node (H : String → Nat) (r : HashRing) (key : String) : Option String :=
  if r.nodes.isEmpty then none
  else
    let idx := bisect_right (H key) r.sorted_virtual_nodes
    dictGet (r.sorted_virtual_nodes.getD (idx % r.sorted_virtual_nodes.length) 0)
      r.hash_to_node

/-- A membership-change operation on the ring. -/
inductive RingOp where
  | add (node : String)
  | remove (node : String)

/-- The node an operation mentions. -/
def opNode : RingOp → String
  | .add n => n
  | .remove n => n

/-- Apply one membership operation. -/
def applyOp (H : String → Nat) (r : HashRing) : RingOp → HashRing
  | .add n => add_node H r n
  | .remove n => remove_node H r n

/-- Apply a sequence of membership operations. -/
def applyOps (H : String → Nat) (r : HashRing) (ops : List RingOp) : HashRing :=
  ops.foldl (applyOp H) r

/-- Every node mentioned by the initial node list or the operations. -/
def touchedNodes (init : List String) (ops : List RingOp) : List String :=
  init ++ ops.map opNode

/-- Collision-freedom of the hash on the virtual keys of the mentioned
nodes: distinct `(node, index)` pairs get distinct hashes.  MD5 has no
known collisions on such short inputs; the ring code itself silently
relies on this. -/
abbrev HInj (H : String → Nat) (V : Nat) (ns : List String) : Prop :=
  ∀ n₁ ∈ ns, ∀ n₂ ∈ ns, ∀ i, i < V → ∀ j, j < V →
    H (virtualKey n₁ i) = H (virtualKey n₂ j) → n₁ = n₂ ∧ i = j

/-- First element of a sorted sequence that is strictly greater than `x`
(on a sorted list this is the smallest such element). -/
def ringSuccessor (x : Nat) (l : List Nat) : Option Nat :=
  l.find? (fun p => decide (x < p))

/-- The ring invariant: the node set is duplicate-free and drawn from the
nodes mentioned so far, the sorted sequence is sorted and holds exactly
the hash positions of the member nodes, and `_hash_to_node` binds exactly
those positions to their nodes. -/
def ringInv (H : String → Nat) (V : Nat) (allowed : List String) (r : HashRing) : Prop :=
  r.num_virtual_nodes = V ∧
  r.nodes.Nodup ∧
  (∀ n ∈ r.nodes, n ∈ allowed) ∧
  List.Sorted (· ≤ ·) r.sorted_virtual_nodes ∧
  List.Perm r.sorted_virtual_nodes (r.nodes.flatMap (nodeHashes H V)) ∧
  List.Perm r.hash_to_node
    (r.nodes.flatMap (fun n => (nodeHashes H V n).map (fun k => (k, n))))

deriving instance DecidableEq for Except

/-- Python `==` is reflexive on the embedded values. -/
theorem pyEq_refl (v : PyVal) : pyEq v v = true := by
  cases v <;> simp [pyEq]

/-- C9: when tagging is disabled, `delete_tag` returns `None` for every
argument list — no tag validation (so no `InvalidKey`, even for a tag
containing a brace group), no node calls, no deletions. -/
theorem C9_delete_tag_disabled (owner : String → String) (store : String → Bool)
    (tags : List String) :
    delete_tag false owner store tags = .ok (none, []) := rfl

/-- C8: the failover bootstrap, run over the shuffled supervisor list's
outcomes in order, takes the first successful reply's master names as the
shard set; it raises `MastersListUnavailable` exactly when no supervisor
responds successfully, and `NoMastersConfigured` exactly when the first
successful reply is an empty master set. -/
theorem C8_bootstrap_first_success (rs : List (Option (List String))) :
    (bootstrap_masters rs = .error .mastersListUnavailable ↔ rs.findSome? id = none) ∧
    (bootstrap_masters rs = .error .noMastersConfigured ↔ rs.findSome? id = some []) ∧
    (∀ ms, bootstrap_masters rs = .ok ms ↔ (rs.findSome? id = some ms ∧ ms ≠ [])) := by
  induction rs with
  | nil => simp [bootstrap_masters]
  | cons head rest ih =>
    match head with
    | none => simpa [bootstrap_masters] using ih
    | some ms₀ =>
      rcases Decidable.em (ms₀.length = 0) with h0 | h0
      · have hnil : ms₀ = [] := List.length_eq_zero.mp h0
        subst hnil
        refine ⟨?_, ?_, ?_⟩ <;> simp [bootstrap_masters]
      · have hne : ms₀ ≠ [] := fun hh => h0 (by simp [hh])
        refine ⟨?_, ?_, ?_⟩
        · simp [bootstrap_masters, hne]
        · simp [bootstrap_masters, hne]
        · intro ms
          simp only [bootstrap_masters, if_neg h0, List.findSome?_cons, id]
          constructor
          · intro h
            cases h
            exact ⟨rfl, hne⟩
          · intro h
            cases h.1
            rfl

/-- C1: `RedisCache.incr` on an absent key raises `ValueError`, as the
claim says; but on a present key it raises `AttributeError` instead of
performing `INCRBY`: `self.client.incr(key, delta)` hits
`RingClient.__getattr__`, whose method sets contain `"incrby"` but not
`"incr"`.  Evaluated here at the claim's own scenario `set("n", 41);
incr("n")` (stored form `":1:n" ↦ "41"`), which the repository's
`test_incr` expects to return 42. -/
theorem C1_incr_dispatch (delta : Int) :
    cache_incr false store41 "" 1 "n" delta = .error .attributeError ∧
    cache_incr false emptyStore "" 1 "missing" delta = .error .valueError := by
  constructor <;> rfl

/-- C10: in the facade `set`/`add` body (`RedisCache._set`), the value is
encoded before the `timeout <= 0` guard runs, so an unencodable value
raises the encoding error even when the timeout is `<= 0` — the case in
which the guard would otherwise store nothing and return `False`. -/
theorem C10_encode_before_ttl_guard
    (doSet : String → Enc → Bool → Option Int → Except PyErr Bool)
    (compress : Bool) (pre : String) (dt : Option Int) (key : String)
    (v : PyVal) (timeout : TimeoutArg) (version : Int) (add_only : Bool)
    (s : Int) (e : PyErr)
    (ht : get_backend_timeout dt timeout = some s) (hs : s ≤ 0)
    (hv : dumps v compress = .error e) :
    cache_set doSet compress pre dt key v timeout version add_only = .error e ∧
    cache_set doSet compress pre dt key v timeout version add_only ≠ .ok false := by
  constructor
  · simp [cache_set, hv]
  · simp [cache_set, hv]

/-- Witness for C10 at a concrete unencodable value and `timeout = 0`. -/
theorem C10_encode_before_ttl_guard_witness :
    cache_set (fun _ _ _ _ => .ok true) false "" (some 300) "k" (.vbad 0)
        (.secs 0) 1 false = .error .pickleError ∧
    cache_set (fun _ _ _ _ => .ok true) false "" (some 300) "k" (.vbad 0)
        (.secs 0) 1 false ≠ .ok false :=
  C10_encode_before_ttl_guard (fun _ _ _ _ => .ok true) false "" (some 300) "k"
    (.vbad 0) (.secs 0) 1 false 0 .pickleError rfl (by decide) rfl

/-- C2: decoding an encoded value gives back a value Python-equal to the
original: whenever `dumps v compress` succeeds, `loads` of the result
(with the same compress flag) succeeds and the decoded value compares
equal (`==`) to `v` — across integers, booleans (decoded as `0`/`1`,
which Python-compare equal), floats (integral floats come back as the
equal integer), strings and other picklable values. -/
theorem C2_loads_dumps_roundtrip (v : PyVal) (c : Bool) (e : Enc)
    (h : dumps v c = .ok e) :
    (loads e c).map (fun w => pyEq w v) = .ok true := by
  cases v with
  | vint n =>
    simp only [dumps, Except.ok.injEq] at h
    subst h
    show Except.ok (pyEq (.vint n) (.vint n)) = Except.ok true
    rw [pyEq_refl]
  | vbool b =>
    simp only [dumps, Except.ok.injEq] at h
    subst h
    cases b <;> rfl
  | vfloat q =>
    rw [dumps] at h
    split at h
    · rename_i hq
      simp only [Except.ok.injEq] at h
      subst h
      show Except.ok ((pyTruncInt q : ℚ) == q) = Except.ok true
      rw [beq_iff_eq.mpr hq]
    · simp only [Except.ok.injEq] at h
      subst h
      cases c
      · show Except.ok (pyEq (.vfloat q) (.vfloat q)) = Except.ok true
        rw [pyEq_refl]
      · show Except.ok (pyEq (.vfloat q) (.vfloat q)) = Except.ok true
        rw [pyEq_refl]
  | vstr s =>
    simp only [dumps, Except.ok.injEq] at h
    subst h
    cases c
    · show Except.ok (pyEq (.vstr s) (.vstr s)) = Except.ok true
      rw [pyEq_refl]
    · show Except.ok (pyEq (.vstr s) (.vstr s)) = Except.ok true
      rw [pyEq_refl]
  | vother i =>
    simp only [dumps, Except.ok.injEq] at h
    subst h
    cases c
    · show Except.ok (pyEq (.vother i) (.vother i)) = Except.ok true
      rw [pyEq_refl]
    · show Except.ok (pyEq (.vother i) (.vother i)) = Except.ok true
      rw [pyEq_refl]
  | vbad i => simp [dumps] at h

/-- Witness for C2 at the test-suite's own value `'lolcat'`. -/
theorem C2_loads_dumps_roundtrip_witness :
    (loads (Enc.pickled (PyVal.vstr "lolcat")) false).map
        (fun w => pyEq w (PyVal.vstr "lolcat")) = .ok true :=
  C2_loads_dumps_roundtrip (PyVal.vstr "lolcat") false
    (Enc.pickled (PyVal.vstr "lolcat")) rfl

/-- C6 counterexample: `dumps(41)` is the integer `41` itself, not the
decimal string `"41"` (the repository's own `PickleTestCase.test_integers`
asserts `pickle.dumps(1) == 1`, and Python's `41 == "41"` is false); the
decimal-string form only appears on the wire when the driver serializes
the integer. -/
theorem C6_dumps_int_counterexample :
    dumps (PyVal.vint 41) false = .ok (.int 41) ∧
    dumps (PyVal.vint 41) false ≠ .ok (.bytes (toString (41 : Int))) := by
  constructor
  · rfl
  · decide

/-- C6 as amended: for every integer `n`, `dumps n` returns the integer
`n` itself unchanged (the stored form the driver writes as its decimal
representation, which is what keeps server-side `INCRBY` valid), and for
every float `f` equal to its integer cast, `dumps f` returns the integer
`int(f)`. -/
theorem C6_dumps_numeric (n : Int) (q : ℚ) (c₁ c₂ : Bool)
    (hq : (pyTruncInt q : ℚ) = q) :
    dumps (.vint n) c₁ = .ok (.int n) ∧
    dumps (.vfloat q) c₂ = .ok (.int (pyTruncInt q)) :=
  ⟨rfl, by simp [dumps, hq]⟩

/-- Witness for the amended C6 at `n = 41`, `f = 41.0`. -/
theorem C6_dumps_numeric_witness :
    dumps (.vint 41) true = .ok (.int 41) ∧
    dumps (.vfloat (41 : ℚ)) true = .ok (.int (pyTruncInt (41 : ℚ))) :=
  C6_dumps_numeric 41 (41 : ℚ) true true (by decide)

/-- C5: with tagging enabled, each of the five tag-routed operations is
dispatched by `__getattr__` to `_tag_route`; an untagged key (its bucket
is the key itself) gets the flat command on the node owning the key, and a
tagged key gets the hash-map analog (the `h`-prefixed command, one of
`hexists`/`hget`/`hincrby`/`hset`/`hsetnx`) on the node owning the
bucket, with the bucket prepended as the map-key argument — placement is
by the bucket, not the key. -/
theorem C5_tag_route (op : String) (hop : op ∈ TAG_ROUTE_METHODS)
    (owner : String → String) (arg0 : String) (rest : List String) :
    ringGetattr op = some .tagRoute ∧
    (get_cache_key true arg0 = arg0 →
      tag_route true owner op arg0 rest = ⟨owner arg0, op, arg0 :: rest⟩) ∧
    (get_cache_key true arg0 ≠ arg0 →
      tag_route true owner op arg0 rest =
        ⟨owner (get_cache_key true arg0), "h" ++ op,
         get_cache_key true arg0 :: arg0 :: rest⟩ ∧
      ("h" ++ op) ∈ ["hexists", "hget", "hincrby", "hset", "hsetnx"]) := by
  simp only [TAG_ROUTE_METHODS, List.mem_cons, List.not_mem_nil, or_false] at hop
  rcases hop with rfl | rfl | rfl | rfl | rfl <;>
    exact ⟨rfl,
      fun hsame => by simp [tag_route, hsame],
      fun hdiff => ⟨by simp [tag_route, hdiff], by decide⟩⟩

/-- Witness for C5 at the tag-routed `get` of the tagged key
`"{T}-a"`. -/
theorem C5_tag_route_witness :
    ringGetattr "get" = some Dispatch.tagRoute ∧
    (get_cache_key true "\x7bT\x7d-a" = "\x7bT\x7d-a" →
      tag_route true (fun _ => "n0") "get" "\x7bT\x7d-a" [] =
        ⟨"n0", "get", ["\x7bT\x7d-a"]⟩) ∧
    (get_cache_key true "\x7bT\x7d-a" ≠ "\x7bT\x7d-a" →
      tag_route true (fun _ => "n0") "get" "\x7bT\x7d-a" [] =
        ⟨"n0", "h" ++ "get",
         get_cache_key true "\x7bT\x7d-a" :: "\x7bT\x7d-a" :: []⟩ ∧
      ("h" ++ "get") ∈ ["hexists", "hget", "hincrby", "hset", "hsetnx"]) :=
  C5_tag_route "get" (by decide) (fun _ => "n0") "\x7bT\x7d-a" []

/-- On a list whose elements are all `≤ x`, the right-bisect insertion
point is the length. -/
theorem bisect_right_eq_length (x : Nat) (l : List Nat) (h : ∀ q ∈ l, q ≤ x) :
    bisect_right x l = l.length := by
  induction l with
  | nil => rfl
  | cons a t ih =>
    have hax : ¬ x < a := not_lt.mpr (h a (List.mem_cons_self a t))
    simp [bisect_right, hax, ih (fun q hq => h q (List.mem_cons_of_mem a hq))]

/-- On a sorted list, when `p` is the least element strictly greater than
`x`, the right-bisect insertion point is in range and lands on `p`. -/
theorem bisect_right_min (x p : Nat) (l : List Nat)
    (hs : List.Sorted (· ≤ ·) l) (hp : p ∈ l) (hx : x < p)
    (hmin : ∀ q ∈ l, x < q → p ≤ q) :
    bisect_right x l < l.length ∧ l.getD (bisect_right x l) 0 = p := by
  induction l with
  | nil => cases hp
  | cons a t ih =>
    obtain ⟨ha, ht⟩ := List.sorted_cons.mp hs
    by_cases hxa : x < a
    · have hpa : p ≤ a := hmin a (List.mem_cons_self a t) hxa
      have hap : a ≤ p := by
        rcases List.mem_cons.mp hp with rfl | hpt
        · exact le_refl _
        · exact ha p hpt
      have hape : a = p := le_antisymm hap hpa
      subst hape
      simp [bisect_right, hxa]
    · have hpa : p ≠ a := fun hh => hxa (hh ▸ hx)
      have hpt : p ∈ t := by
        rcases List.mem_cons.mp hp with rfl | hpt
        · exact absurd rfl hpa
        · exact hpt
      obtain ⟨hlt, hget⟩ :=
        ih ht hpt (fun q hq hxq => hmin q (List.mem_cons_of_mem a hq) hxq)
      refine ⟨?_, ?_⟩
      · simpa [bisect_right, hxa] using Nat.succ_lt_succ hlt
      · simpa [bisect_right, hxa] using hget

/-- When no element is strictly greater than `x`, every element is
`≤ x`. -/
theorem ringSuccessor_none (x : Nat) (l : List Nat)
    (h : ringSuccessor x l = none) : ∀ q ∈ l, q ≤ x := by
  intro q hq
  have := List.find?_eq_none.mp h q hq
  simpa using this

/-- On a sorted list, `ringSuccessor` returns the least element strictly
greater than `x`. -/
theorem ringSuccessor_some (x p : Nat) (l : List Nat)
    (hs : List.Sorted (· ≤ ·) l) (h : ringSuccessor x l = some p) :
    p ∈ l ∧ x < p ∧ ∀ q ∈ l, x < q → p ≤ q := by
  induction l with
  | nil => cases h
  | cons a t ih =>
    obtain ⟨ha, ht⟩ := List.sorted_cons.mp hs
    by_cases hxa : x < a
    · have hpa : p = a := by
        have := h
        simp [ringSuccessor, List.find?_cons, hxa] at this
        exact this.symm
      subst hpa
      refine ⟨List.mem_cons_self _ _, hxa, ?_⟩
      intro q hq hxq
      rcases List.mem_cons.mp hq with rfl | hqt
      · exact le_refl _
      · exact ha q hqt
    · have ht' : ringSuccessor x t = some p := by
        have := h
        simpa [ringSuccessor, List.find?_cons, hxa] using this
      obtain ⟨hpt, hxp, hmt⟩ := ih ht ht'
      refine ⟨List.mem_cons_of_mem a hpt, hxp, ?_⟩
      intro q hq hxq
      rcases List.mem_cons.mp hq with rfl | hqt
      · exact absurd hxq hxa
      · exact hmt q hqt hxq

/-- An in-range `getD` is a member of the list. -/
theorem getD_mem_of_lt (l : List Nat) (i : Nat) (h : i < l.length) :
    l.getD i 0 ∈ l := by
  rw [List.getD_eq_getElem l 0 h]
  exact List.getElem_mem h

/-- C3: on a well-formed ring (sorted positions, positions empty exactly
when the node set is, every position bound in `_hash_to_node`),
`get_node` returns `none` iff the node set is empty; otherwise it returns
the binding of the smallest virtual position whose hash is strictly
greater than `hash(key)` — so a key whose hash equals a position maps to
the next position — wrapping to the position at index 0 when no strictly
greater position exists. -/
theorem C3_get_node_characterization (H : String → Nat) (r : HashRing) (key : String)
    (hsorted : List.Sorted (· ≤ ·) r.sorted_virtual_nodes)
    (hlink : r.nodes = [] ↔ r.sorted_virtual_nodes = [])
    (hdict : ∀ p ∈ r.sorted_virtual_nodes, (dictGet p r.hash_to_node).isSome = true) :
    (get_node H r key = none ↔ r.nodes = []) ∧
    (∀ p, ringSuccessor (H key) r.sorted_virtual_nodes = some p →
      H key < p ∧ (∀ q ∈ r.sorted_virtual_nodes, H key < q → p ≤ q) ∧
      get_node H r key = dictGet p r.hash_to_node) ∧
    (ringSuccessor (H key) r.sorted_virtual_nodes = none → r.nodes ≠ [] →
      (∀ q ∈ r.sorted_virtual_nodes, q ≤ H key) ∧
      get_node H r key = dictGet (r.sorted_virtual_nodes.getD 0 0) r.hash_to_node) := by
  refine ⟨⟨?_, ?_⟩, ?_, ?_⟩
  · intro h
    by_contra hne
    have hie : r.nodes.isEmpty = false := by
      rcases hn : r.nodes with _ | ⟨a, t⟩
      · exact absurd hn hne
      · rfl
    have hlne : r.sorted_virtual_nodes ≠ [] := fun hl => hne (hlink.mpr hl)
    have hlen : 0 < r.sorted_virtual_nodes.length := List.length_pos.mpr hlne
    have hmod :
        bisect_right (H key) r.sorted_virtual_nodes % r.sorted_virtual_nodes.length
          < r.sorted_virtual_nodes.length := Nat.mod_lt _ hlen
    have hsome := hdict _ (getD_mem_of_lt _ _ hmod)
    rw [get_node, hie] at h
    simp only [Bool.false_eq_true, if_false] at h
    rw [h] at hsome
    cases hsome
  · intro h
    simp [get_node, h]
  · intro p hsucc
    obtain ⟨hpmem, hxp, hmin⟩ := ringSuccessor_some _ _ _ hsorted hsucc
    obtain ⟨hlt, hget⟩ := bisect_right_min (H key) p _ hsorted hpmem hxp hmin
    refine ⟨hxp, hmin, ?_⟩
    have hnne : r.nodes ≠ [] := by
      intro h0
      rw [hlink.mp h0] at hpmem
      cases hpmem
    have hie : r.nodes.isEmpty = false := by
      rcases hn : r.nodes with _ | ⟨a, t⟩
      · exact absurd hn hnne
      · rfl
    rw [get_node, hie]
    simp only [Bool.false_eq_true, if_false]
    rw [Nat.mod_eq_of_lt hlt, hget]
  · intro hnone hnne
    have hq := ringSuccessor_none _ _ hnone
    refine ⟨hq, ?_⟩
    have hie : r.nodes.isEmpty = false := by
      rcases hn : r.nodes with _ | ⟨a, t⟩
      · exact absurd hn hnne
      · rfl
    rw [get_node, hie]
    simp only [Bool.false_eq_true, if_false]
    rw [bisect_right_eq_length (H key) _ hq, Nat.mod_self]

/-- Witness for C3 on a two-node ring: hash 15 falls before position 20
(successor case), hash 25 falls after every position (wrap to index 0). -/
theorem C3_get_node_characterization_witness :
    get_node (fun s => s.length * 5)
        ⟨["a", "b"], 1, [(10, "a"), (20, "b")], [10, 20]⟩ "kkk" = some "b" ∧
    get_node (fun s => s.length * 5)
        ⟨["a", "b"], 1, [(10, "a"), (20, "b")], [10, 20]⟩ "kkkkk" = some "a" := by
  have h1 :=
    (C3_get_node_characterization (fun s => s.length * 5)
        ⟨["a", "b"], 1, [(10, "a"), (20, "b")], [10, 20]⟩ "kkk"
        (by decide) (by decide) (by decide)).2.1 20 (by decide)
  have h2 :=
    (C3_get_node_characterization (fun s => s.length * 5)
        ⟨["a", "b"], 1, [(10, "a"), (20, "b")], [10, 20]⟩ "kkkkk"
        (by decide) (by decide) (by decide)).2.2 (by decide) (by decide)
  exact ⟨h1.2.2.trans (by decide), h2.2.trans (by decide)⟩

theorem insort_perm (x : Nat) (l : List Nat) : List.Perm (insort x l) (x :: l) := by
  induction l with
  | nil => exact List.Perm.refl _
  | cons a t ih =>
    rw [insort]
    by_cases hxa : x < a
    · rw [if_pos hxa]
    · rw [if_neg hxa]
      exact (ih.cons a).trans (List.Perm.swap x a t)

theorem mem_insort (y x : Nat) (l : List Nat) :
    y ∈ insort x l ↔ y = x ∨ y ∈ l := by
  rw [(insort_perm x l).mem_iff]
  simp

theorem insort_sorted (x : Nat) (l : List Nat) (hs : List.Sorted (· ≤ ·) l) :
    List.Sorted (· ≤ ·) (insort x l) := by
  induction l with
  | nil => simp [insort]
  | cons a t ih =>
    obtain ⟨ha, ht⟩ := List.sorted_cons.mp hs
    rw [insort]
    by_cases hxa : x < a
    · rw [if_pos hxa]
      exact List.sorted_cons.mpr
        ⟨fun b hb => by
          rcases List.mem_cons.mp hb with rfl | hbt
          · exact le_of_lt hxa
          · exact le_trans (le_of_lt hxa) (ha b hbt), hs⟩
    · rw [if_neg hxa]
      refine List.sorted_cons.mpr ⟨?_, ih ht⟩
      intro b hb
      rcases (mem_insort b x t).mp hb with rfl | hbt
      · exact not_lt.mp hxa
      · exact ha b hbt

theorem dictInsert_fresh (k : Nat) (v : String) (d : List (Nat × String))
    (h : k ∉ d.map Prod.fst) : dictInsert k v d = d ++ [(k, v)] := by
  induction d with
  | nil => rfl
  | cons p rest ih =>
    have hpk : p.1 ≠ k := by
      intro he
      exact h (by simp [he])
    rw [dictInsert]
    simp only [hpk, if_false, List.cons_append]
    rw [ih (fun hm => h (List.mem_cons_of_mem _ hm))]

theorem eraseIdx_bisect_left (x : Nat) (l : List Nat)
    (hs : List.Sorted (· ≤ ·) l) (hx : x ∈ l) :
    l.eraseIdx (bisect_left x l) = l.erase x := by
  induction l with
  | nil => cases hx
  | cons a t ih =>
    obtain ⟨ha, ht⟩ := List.sorted_cons.mp hs
    by_cases hax : a < x
    · have hne : a ≠ x := ne_of_lt hax
      have hxt : x ∈ t := by
        rcases List.mem_cons.mp hx with heq | hxt
        · exact absurd (heq ▸ hax) (lt_irrefl x)
        · exact hxt
      rw [bisect_left]
      rw [if_pos hax]
      rw [List.eraseIdx_cons_succ, ih ht hxt, List.erase_cons_tail]
      simpa using hne
    · have hxa : x ≤ a := not_lt.mp hax
      have hae : a = x := by
        rcases List.mem_cons.mp hx with heq | hxt
        · exact heq.symm
        · exact le_antisymm (ha x hxt) hxa
      subst hae
      rw [bisect_left]
      rw [if_neg hax]
      rw [List.eraseIdx_cons_zero, List.erase_cons_head]

theorem dictRemove_eq_erase (k : Nat) (v : String) (d : List (Nat × String))
    (hnd : (d.map Prod.fst).Nodup) (hm : (k, v) ∈ d) :
    dictRemove k d = d.erase (k, v) := by
  induction d with
  | nil => cases hm
  | cons p rest ih =>
    obtain ⟨hp, hrest⟩ := List.nodup_cons.mp hnd
    by_cases hpk : p.1 = k
    · have hpv : p = (k, v) := by
        rcases List.mem_cons.mp hm with he | hmr
        · exact he.symm
        · exact absurd (hpk ▸ (List.mem_map_of_mem Prod.fst hmr : (k, v).1 ∈ rest.map Prod.fst)) hp
      rw [dictRemove]
      rw [if_pos hpk, hpv, List.erase_cons_head]
    · have hmr : (k, v) ∈ rest := by
        rcases List.mem_cons.mp hm with he | hmr
        · exact absurd (he ▸ rfl) hpk
        · exact hmr
      rw [dictRemove]
      rw [if_neg hpk, ih hrest hmr, List.erase_cons_tail]
      simp only [beq_iff_eq]
      intro he
      exact hpk (he ▸ rfl)

theorem erase_pair_eq (d : List (Nat × String)) (p : Nat × String) :
    List.erase d p = @List.erase _ instBEqOfDecidableEq d p := by
  induction d with
  | nil => rfl
  | cons q rest ih =>
    by_cases hqp : q = p <;> simp [List.erase_cons, hqp, ih, instBEqOfDecidableEq]

theorem addStep_fold (node : String) (ks : List Nat) :
    ∀ s : HashRing,
      List.Sorted (· ≤ ·) s.sorted_virtual_nodes →
      ks.Nodup →
      (∀ k ∈ ks, k ∉ s.hash_to_node.map Prod.fst) →
      (ks.foldl (addStep node) s).nodes = s.nodes ∧
      (ks.foldl (addStep node) s).num_virtual_nodes = s.num_virtual_nodes ∧
      (ks.foldl (addStep node) s).hash_to_node
        = s.hash_to_node ++ ks.map (fun k => (k, node)) ∧
      List.Perm (ks.foldl (addStep node) s).sorted_virtual_nodes
        (ks ++ s.sorted_virtual_nodes) ∧
      List.Sorted (· ≤ ·) (ks.foldl (addStep node) s).sorted_virtual_nodes := by
  induction ks with
  | nil =>
    intro s hs _ _
    exact ⟨rfl, rfl, by simp, List.Perm.refl _, hs⟩
  | cons k ks ih =>
    intro s hs hnd hfresh
    obtain ⟨hk_ks, hnd2⟩ := List.nodup_cons.mp hnd
    have hkfresh : k ∉ s.hash_to_node.map Prod.fst :=
      hfresh k (List.mem_cons_self k ks)
    have hstep : addStep node s k =
        ⟨s.nodes, s.num_virtual_nodes, s.hash_to_node ++ [(k, node)],
         insort k s.sorted_virtual_nodes⟩ := by
      rw [addStep, dictInsert_fresh k node s.hash_to_node hkfresh]
    have hfresh2 : ∀ k₂ ∈ ks,
        k₂ ∉ (s.hash_to_node ++ [(k, node)]).map Prod.fst := by
      intro k₂ hk₂ hor
      rw [List.map_append, List.mem_append] at hor
      rcases hor with hm | hm
      · exact hfresh k₂ (List.mem_cons_of_mem _ hk₂) hm
      · have hk2k : k₂ = k := by simpa using hm
        exact hk_ks (hk2k ▸ hk₂)
    obtain ⟨h1, h2, h3, h4, h5⟩ := ih
      ⟨s.nodes, s.num_virtual_nodes, s.hash_to_node ++ [(k, node)],
       insort k s.sorted_virtual_nodes⟩
      (insort_sorted k _ hs) hnd2 hfresh2
    rw [List.foldl_cons, hstep]
    refine ⟨h1, h2, ?_, ?_, h5⟩
    · rw [h3, List.append_assoc]
      rfl
    · refine h4.trans ?_
      refine (List.Perm.append_left ks (insort_perm k s.sorted_virtual_nodes)).trans ?_
      exact List.perm_middle

theorem removeStep_fold (ks : List Nat) :
    ∀ (s : HashRing) (rl : List Nat) (rd : List (Nat × String)) (node : String),
      List.Sorted (· ≤ ·) s.sorted_virtual_nodes →
      List.Perm s.sorted_virtual_nodes (ks ++ rl) →
      (s.hash_to_node.map Prod.fst).Nodup →
      List.Perm s.hash_to_node (ks.map (fun k => (k, node)) ++ rd) →
      (ks.foldl removeStep s).nodes = s.nodes ∧
      (ks.foldl removeStep s).num_virtual_nodes = s.num_virtual_nodes ∧
      List.Perm (ks.foldl removeStep s).sorted_virtual_nodes rl ∧
      List.Sorted (· ≤ ·) (ks.foldl removeStep s).sorted_virtual_nodes ∧
      List.Perm (ks.foldl removeStep s).hash_to_node rd ∧
      ((ks.foldl removeStep s).hash_to_node.map Prod.fst).Nodup := by
  induction ks with
  | nil =>
    intro s rl rd node hs hpl hnd hpd
    exact ⟨rfl, rfl, by simpa using hpl, hs, by simpa using hpd, hnd⟩
  | cons k ks ih =>
    intro s rl rd node hs hpl hnd hpd
    have hkmem : k ∈ s.sorted_virtual_nodes := hpl.mem_iff.mpr (by simp)
    have hkd : (k, node) ∈ s.hash_to_node := hpd.mem_iff.mpr (by simp)
    have heridx :
        s.sorted_virtual_nodes.eraseIdx (bisect_left k s.sorted_virtual_nodes)
          = s.sorted_virtual_nodes.erase k :=
      eraseIdx_bisect_left k _ hs hkmem
    have hderem : dictRemove k s.hash_to_node = s.hash_to_node.erase (k, node) :=
      dictRemove_eq_erase k node _ hnd hkd
    have hstep : removeStep s k =
        ⟨s.nodes, s.num_virtual_nodes, s.hash_to_node.erase (k, node),
         s.sorted_virtual_nodes.erase k⟩ := by
      rw [removeStep, heridx, hderem]
    have hpl2 : List.Perm (s.sorted_virtual_nodes.erase k) (ks ++ rl) := by
      simpa using List.Perm.erase k hpl
    have hpd2 : List.Perm (s.hash_to_node.erase (k, node))
        (ks.map (fun k => (k, node)) ++ rd) := by
      have h2 := List.Perm.erase (k, node) hpd
      rw [List.map_cons, List.cons_append] at h2
      have e1 : s.hash_to_node.erase (k, node)
          = @List.erase _ instBEqOfDecidableEq s.hash_to_node (k, node) :=
        erase_pair_eq _ _
      have e2 : (List.map (fun k => (k, node)) ks ++ rd)
          = @List.erase _ instBEqOfDecidableEq
              ((k, node) :: (List.map (fun k => (k, node)) ks ++ rd)) (k, node) := by
        rw [← erase_pair_eq, List.erase_cons_head]
      rw [← e1, ← e2] at h2
      exact h2
    have hs2 : List.Sorted (· ≤ ·) (s.sorted_virtual_nodes.erase k) :=
      List.Pairwise.sublist (List.erase_sublist k _) hs
    have hnd2 : ((s.hash_to_node.erase (k, node)).map Prod.fst).Nodup :=
      List.Nodup.sublist (List.Sublist.map _ (List.erase_sublist _ _)) hnd
    rw [List.foldl_cons, hstep]
    exact ih
      ⟨s.nodes, s.num_virtual_nodes, s.hash_to_node.erase (k, node),
       s.sorted_virtual_nodes.erase k⟩ rl rd node hs2 hpl2 hnd2 hpd2

theorem nodeHashes_length (H : String → Nat) (V : Nat) (n : String) :
    (nodeHashes H V n).length = V := by
  simp [nodeHashes]

theorem mem_nodeHashes (H : String → Nat) (V : Nat) (n : String) (k : Nat) :
    k ∈ nodeHashes H V n ↔ ∃ i, i < V ∧ H (virtualKey n i) = k := by
  simp [nodeHashes]

theorem nodeHashes_nodup (H : String → Nat) (V : Nat) (ns : List String)
    (hinj : HInj H V ns) (n : String) (hn : n ∈ ns) :
    (nodeHashes H V n).Nodup := by
  rw [nodeHashes]
  refine List.Nodup.map_on ?_ (List.nodup_range V)
  intro i hi j hj he
  exact (hinj n hn n hn i (List.mem_range.mp hi) j (List.mem_range.mp hj) he).2

theorem nodeHashes_disjoint (H : String → Nat) (V : Nat) (ns : List String)
    (hinj : HInj H V ns) (m n : String) (hm : m ∈ ns) (hn : n ∈ ns)
    (hmn : m ≠ n) : ∀ k ∈ nodeHashes H V m, k ∉ nodeHashes H V n := by
  intro k hkm hkn
  obtain ⟨i, hi, hik⟩ := (mem_nodeHashes H V m k).mp hkm
  obtain ⟨j, hj, hjk⟩ := (mem_nodeHashes H V n k).mp hkn
  exact hmn (hinj m hm n hn i hi j hj (hik.trans hjk.symm)).1

theorem flatMap_nodeHashes_nodup (H : String → Nat) (V : Nat) (ns : List String)
    (hinj : HInj H V ns) :
    ∀ ms : List String, ms.Nodup → (∀ m ∈ ms, m ∈ ns) →
      (ms.flatMap (nodeHashes H V)).Nodup := by
  intro ms
  induction ms with
  | nil => simp
  | cons m ms ih =>
    intro hnd hsub
    obtain ⟨hm_ms, hnd2⟩ := List.nodup_cons.mp hnd
    rw [List.flatMap_cons, List.nodup_append]
    refine ⟨nodeHashes_nodup H V ns hinj m (hsub m (List.mem_cons_self m ms)),
      ih hnd2 (fun x hx => hsub x (List.mem_cons_of_mem m hx)), ?_⟩
    intro k hk hk2
    obtain ⟨m2, hm2, hkm2⟩ := List.mem_flatMap.mp hk2
    have hmne : m ≠ m2 := fun he => hm_ms (he ▸ hm2)
    exact nodeHashes_disjoint H V ns hinj m m2
      (hsub m (List.mem_cons_self m ms)) (hsub m2 (List.mem_cons_of_mem m hm2))
      hmne k hk hkm2

theorem map_fst_dictPairs (H : String → Nat) (V : Nat) (ms : List String) :
    (ms.flatMap (fun n => (nodeHashes H V n).map (fun k => (k, n)))).map Prod.fst
      = ms.flatMap (nodeHashes H V) := by
  induction ms with
  | nil => simp
  | cons m ms ih =>
    rw [List.flatMap_cons, List.flatMap_cons, List.map_append, ih, List.map_map]
    have hcomp : (Prod.fst ∘ fun k => (k, m)) = (id : Nat → Nat) := rfl
    rw [hcomp, List.map_id]

theorem ringInv_add (H : String → Nat) (V : Nat) (allowed : List String)
    (r : HashRing) (node : String) (hinj : HInj H V allowed)
    (hnode : node ∈ allowed) (hr : ringInv H V allowed r) :
    ringInv H V allowed (add_node H r node) := by
  obtain ⟨hV, hnd, hsub, hsort, hpl, hpd⟩ := hr
  by_cases hmem : node ∈ r.nodes
  · rw [add_node, if_pos hmem]
    exact ⟨hV, hnd, hsub, hsort, hpl, hpd⟩
  · rw [add_node, if_neg hmem, hV]
    have hksnd : (nodeHashes H V node).Nodup :=
      nodeHashes_nodup H V allowed hinj node hnode
    have hfresh : ∀ k ∈ nodeHashes H V node,
        k ∉ (HashRing.mk (r.nodes ++ [node]) V r.hash_to_node
              r.sorted_virtual_nodes).hash_to_node.map Prod.fst := by
      intro k hk hmk
      have hmk2 : k ∈ r.nodes.flatMap (nodeHashes H V) := by
        have := (hpd.map Prod.fst).mem_iff.mp hmk
        rwa [map_fst_dictPairs] at this
      obtain ⟨m, hm, hkm⟩ := List.mem_flatMap.mp hmk2
      have hmne : m ≠ node := fun he => hmem (he ▸ hm)
      exact nodeHashes_disjoint H V allowed hinj m node (hsub m hm) hnode
        hmne k hkm hk
    obtain ⟨h1, h2, h3, h4, h5⟩ := addStep_fold node (nodeHashes H V node)
      ⟨r.nodes ++ [node], V, r.hash_to_node, r.sorted_virtual_nodes⟩
      hsort hksnd hfresh
    refine ⟨h2, ?_, ?_, h5, ?_, ?_⟩
    · rw [h1]
      rw [List.nodup_append]
      refine ⟨hnd, List.nodup_singleton node, ?_⟩
      intro a ha hb
      rw [List.mem_singleton] at hb
      exact hmem (hb ▸ ha)
    · rw [h1]
      intro n hn
      rcases List.mem_append.mp hn with hn1 | hn2
      · exact hsub n hn1
      · rw [List.mem_singleton] at hn2
        exact hn2 ▸ hnode
    · rw [h1]
      refine h4.trans ?_
      refine (List.Perm.append_left _ hpl).trans ?_
      rw [List.flatMap_append]
      refine List.perm_append_comm.trans ?_
      rw [List.flatMap_cons, List.flatMap_nil, List.append_nil]
    · rw [h1, h3]
      rw [List.flatMap_append, List.flatMap_cons, List.flatMap_nil, List.append_nil]
      exact List.Perm.append_right _ hpd

theorem ringInv_remove (H : String → Nat) (V : Nat) (allowed : List String)
    (r : HashRing) (node : String) (hinj : HInj H V allowed)
    (hr : ringInv H V allowed r) :
    ringInv H V allowed (remove_node H r node) := by
  obtain ⟨hV, hnd, hsub, hsort, hpl, hpd⟩ := hr
  by_cases hmem : node ∈ r.nodes
  · rw [remove_node, if_pos hmem, hV]
    have hksnd : (nodeHashes H V node).Nodup :=
      nodeHashes_nodup H V allowed hinj node (hsub node hmem)
    have hpn : List.Perm r.nodes (node :: r.nodes.erase node) :=
      List.perm_cons_erase hmem
    have hpl2 : List.Perm r.sorted_virtual_nodes
        (nodeHashes H V node ++ (r.nodes.erase node).flatMap (nodeHashes H V)) := by
      refine hpl.trans ?_
      have := List.Perm.flatMap_right (nodeHashes H V) hpn
      rw [List.flatMap_cons] at this
      exact this
    have hpd2 : List.Perm r.hash_to_node
        ((nodeHashes H V node).map (fun k => (k, node)) ++
          (r.nodes.erase node).flatMap
            (fun n => (nodeHashes H V n).map (fun k => (k, n)))) := by
      refine hpd.trans ?_
      have := List.Perm.flatMap_right
        (fun n => (nodeHashes H V n).map (fun k => (k, n))) hpn
      rw [List.flatMap_cons] at this
      exact this
    have hkeysnd : (r.hash_to_node.map Prod.fst).Nodup := by
      rw [(hpd.map Prod.fst).nodup_iff, map_fst_dictPairs]
      exact flatMap_nodeHashes_nodup H V allowed hinj r.nodes hnd hsub
    obtain ⟨h1, h2, h3, h4, h5, h6⟩ := removeStep_fold (nodeHashes H V node)
      ⟨r.nodes.erase node, V, r.hash_to_node, r.sorted_virtual_nodes⟩
      ((r.nodes.erase node).flatMap (nodeHashes H V))
      ((r.nodes.erase node).flatMap
        (fun n => (nodeHashes H V n).map (fun k => (k, n))))
      node hsort hpl2 hkeysnd hpd2
    refine ⟨h2, ?_, ?_, h4, ?_, ?_⟩
    · rw [h1]
      exact hnd.erase node
    · rw [h1]
      intro n hn
      exact hsub n (List.mem_of_mem_erase hn)
    · rw [h1]
      exact h3
    · rw [h1]
      exact h5
  · rw [remove_node, if_neg hmem]
    exact ⟨hV, hnd, hsub, hsort, hpl, hpd⟩

theorem ringInv_empty (H : String → Nat) (V : Nat) (allowed : List String) :
    ringInv H V allowed ⟨[], V, [], []⟩ := by
  refine ⟨rfl, List.nodup_nil, ?_, List.sorted_nil, ?_, ?_⟩ <;> simp

theorem ringInv_new (H : String → Nat) (V : Nat) (allowed : List String)
    (init : List String) (hinj : HInj H V allowed)
    (hsub : ∀ n ∈ init, n ∈ allowed) :
    ringInv H V allowed (hashRingNew H init V) := by
  rw [hashRingNew]
  have hgen : ∀ (ns : List String), (∀ n ∈ ns, n ∈ allowed) →
      ∀ r : HashRing, ringInv H V allowed r →
        ringInv H V allowed (ns.foldl (fun r n => add_node H r n) r) := by
    intro ns
    induction ns with
    | nil => intro _ r hr; exact hr
    | cons n ns ih =>
      intro hsub2 r hr
      rw [List.foldl_cons]
      exact ih (fun x hx => hsub2 x (List.mem_cons_of_mem n hx)) _
        (ringInv_add H V allowed r n hinj (hsub2 n (List.mem_cons_self n ns)) hr)
  exact hgen init hsub _ (ringInv_empty H V allowed)

theorem ringInv_applyOps (H : String → Nat) (V : Nat) (allowed : List String)
    (ops : List RingOp) (hinj : HInj H V allowed)
    (hsub : ∀ op ∈ ops, opNode op ∈ allowed) :
    ∀ r : HashRing, ringInv H V allowed r →
      ringInv H V allowed (applyOps H r ops) := by
  induction ops with
  | nil => intro r hr; exact hr
  | cons op ops ih =>
    intro r hr
    rw [applyOps, List.foldl_cons]
    have hstep : ringInv H V allowed (applyOp H r op) := by
      match op with
      | .add n =>
        exact ringInv_add H V allowed r n hinj
          (hsub (.add n) (List.mem_cons_self _ _)) hr
      | .remove n =>
        exact ringInv_remove H V allowed r n hinj hr
    exact ih (fun op2 hop2 => hsub op2 (List.mem_cons_of_mem _ hop2)) _ hstep

theorem length_flatMap_nodeHashes (H : String → Nat) (V : Nat) (ns : List String) :
    (ns.flatMap (nodeHashes H V)).length = V * ns.length := by
  induction ns with
  | nil => simp
  | cons m ms ih =>
    rw [List.flatMap_cons, List.length_append, nodeHashes_length, ih,
      List.length_cons, Nat.mul_succ]
    omega

theorem countP_flatMap_nodeHashes (H : String → Nat) (V : Nat)
    (allowed : List String) (hinj : HInj H V allowed) (n : String)
    (hnall : n ∈ allowed) :
    ∀ ns : List String, ns.Nodup → (∀ m ∈ ns, m ∈ allowed) → n ∈ ns →
      (ns.flatMap (nodeHashes H V)).countP
        (fun k => decide (k ∈ nodeHashes H V n)) = V := by
  intro ns
  induction ns with
  | nil => intro _ _ hn; cases hn
  | cons m ms ih =>
    intro hnd hsub hn
    obtain ⟨hm_ms, hnd2⟩ := List.nodup_cons.mp hnd
    rw [List.flatMap_cons, List.countP_append]
    rcases List.mem_cons.mp hn with rfl | hn2
    · have hall : (nodeHashes H V n).countP
          (fun k => decide (k ∈ nodeHashes H V n)) = V := by
        rw [List.countP_eq_length.mpr (fun a ha => by simpa using ha)]
        exact nodeHashes_length H V n
      have hzero : (ms.flatMap (nodeHashes H V)).countP
          (fun k => decide (k ∈ nodeHashes H V n)) = 0 := by
        rw [List.countP_eq_zero]
        intro a ha
        obtain ⟨m2, hm2, ham2⟩ := List.mem_flatMap.mp ha
        have hne : m2 ≠ n := fun he => hm_ms (he ▸ hm2)
        simpa using
          nodeHashes_disjoint H V allowed hinj m2 n
            (hsub m2 (List.mem_cons_of_mem n hm2)) hnall hne a ham2
      omega
    · have hne : m ≠ n := fun he => hm_ms (he ▸ hn2)
      have hzero : (nodeHashes H V m).countP
          (fun k => decide (k ∈ nodeHashes H V n)) = 0 := by
        rw [List.countP_eq_zero]
        intro a ha
        simpa using
          nodeHashes_disjoint H V allowed hinj m n
            (hsub m (List.mem_cons_self m ms)) hnall hne a ha
      rw [hzero, ih hnd2 (fun x hx => hsub x (List.mem_cons_of_mem m hx)) hn2]
      omega

/-- C4: after construction and any sequence of `add_node`/`remove_node`
calls (given collision-freedom of the hash on the virtual keys involved),
the ring holds exactly `V` virtual positions for each member node
(default `V = 100`), the virtual-position sequence has length
`V * |nodes|` and is sorted, every hash binds exactly one node name in
`_hash_to_node`, and adding a present node or removing an absent one
leaves the ring unchanged. -/
theorem C4_ring_invariants (H : String → Nat) (V : Nat) (init : List String)
    (ops : List RingOp) (hinj : HInj H V (touchedNodes init ops)) :
    DEFAULT_NUM_VIRTUAL_NODES = 100 ∧
    (∀ n ∈ (applyOps H (hashRingNew H init V) ops).nodes,
      (applyOps H (hashRingNew H init V) ops).sorted_virtual_nodes.countP
        (fun k => decide (k ∈ nodeHashes H V n)) = V) ∧
    (applyOps H (hashRingNew H init V) ops).sorted_virtual_nodes.length
      = V * (applyOps H (hashRingNew H init V) ops).nodes.length ∧
    List.Sorted (· ≤ ·)
      (applyOps H (hashRingNew H init V) ops).sorted_virtual_nodes ∧
    ((applyOps H (hashRingNew H init V) ops).hash_to_node.map Prod.fst).Nodup ∧
    (∀ n ∈ (applyOps H (hashRingNew H init V) ops).nodes,
      add_node H (applyOps H (hashRingNew H init V) ops) n
        = applyOps H (hashRingNew H init V) ops) ∧
    (∀ n, n ∉ (applyOps H (hashRingNew H init V) ops).nodes →
      remove_node H (applyOps H (hashRingNew H init V) ops) n
        = applyOps H (hashRingNew H init V) ops) := by
  have hsub1 : ∀ n ∈ init, n ∈ touchedNodes init ops :=
    fun n hn => List.mem_append_left _ hn
  have hsub2 : ∀ op ∈ ops, opNode op ∈ touchedNodes init ops :=
    fun op hop => List.mem_append_right _ (List.mem_map_of_mem opNode hop)
  obtain ⟨hV, hnd, hsub, hsort, hpl, hpd⟩ :=
    ringInv_applyOps H V (touchedNodes init ops) ops hinj hsub2 _
      (ringInv_new H V (touchedNodes init ops) init hinj hsub1)
  refine ⟨rfl, ?_, ?_, hsort, ?_, ?_, ?_⟩
  · intro n hn
    rw [hpl.countP_eq]
    exact countP_flatMap_nodeHashes H V (touchedNodes init ops) hinj n
      (hsub n hn) _ hnd hsub hn
  · rw [hpl.length_eq, length_flatMap_nodeHashes]
  · rw [(hpd.map Prod.fst).nodup_iff, map_fst_dictPairs]
    exact flatMap_nodeHashes_nodup H V (touchedNodes init ops) hinj _ hnd hsub
  · intro n hn
    rw [add_node, if_pos hn]
  · intro n hn
    rw [remove_node, if_neg hn]

/-- Witness for C4: a concrete injective hash, two initial nodes, `V = 2`
and an add/remove/re-add sequence. -/
theorem C4_ring_invariants_witness :
    (applyOps (fun s => (s.data.map Char.toNat).foldl (fun a c => a * 1000 + c) 7)
      (hashRingNew
        (fun s => (s.data.map Char.toNat).foldl (fun a c => a * 1000 + c) 7)
        ["a", "b"] 2)
      [RingOp.add "c", RingOp.remove "a", RingOp.add "b"]).sorted_virtual_nodes.length
      = 2 * (applyOps
          (fun s => (s.data.map Char.toNat).foldl (fun a c => a * 1000 + c) 7)
          (hashRingNew
            (fun s => (s.data.map Char.toNat).foldl (fun a c => a * 1000 + c) 7)
            ["a", "b"] 2)
          [RingOp.add "c", RingOp.remove "a", RingOp.add "b"]).nodes.length ∧
    (applyOps (fun s => (s.data.map Char.toNat).foldl (fun a c => a * 1000 + c) 7)
      (hashRingNew
        (fun s => (s.data.map Char.toNat).foldl (fun a c => a * 1000 + c) 7)
        ["a", "b"] 2)
      [RingOp.add "c", RingOp.remove "a", RingOp.add "b"]).sorted_virtual_nodes.countP
        (fun k => decide (k ∈ nodeHashes
          (fun s => (s.data.map Char.toNat).foldl (fun a c => a * 1000 + c) 7) 2 "b"))
      = 2 := by
  have h := C4_ring_invariants
    (fun s => (s.data.map Char.toNat).foldl (fun a c => a * 1000 + c) 7) 2
    ["a", "b"] [RingOp.add "c", RingOp.remove "a", RingOp.add "b"] (by decide)
  exact ⟨h.2.2.1, h.2.1 "b" (by decide)⟩

theorem buildBuckets_error (tags : List String)
    (h : ∃ t ∈ tags, tagRegexMatches t = true) :
    buildBuckets tags = .error .invalidKey := by
  induction tags with
  | nil => obtain ⟨t, ht, _⟩ := h; cases ht
  | cons t rest ih =>
    rw [buildBuckets]
    by_cases hm : tagRegexMatches t
    · rw [if_pos hm]
    · rw [if_neg hm]
      obtain ⟨t2, ht2, hmt2⟩ := h
      have ht2r : t2 ∈ rest := by
        rcases List.mem_cons.mp ht2 with rfl | h2
        · exact absurd hmt2 hm
        · exact h2
      rw [ih ⟨t2, ht2r, hmt2⟩]

theorem buildBuckets_ok (tags : List String)
    (h : ∀ t ∈ tags, tagRegexMatches t = false) :
    buildBuckets tags = .ok (tags.map mkBucket) := by
  induction tags with
  | nil => rfl
  | cons t rest ih =>
    rw [buildBuckets]
    have hm : ¬ tagRegexMatches t = true := by
      rw [h t (List.mem_cons_self t rest)]
      exact Bool.false_ne_true
    rw [if_neg hm, ih (fun t2 h2 => h t2 (List.mem_cons_of_mem t h2)), List.map_cons]

theorem delCount_eq (ks : List String) :
    ∀ store : String → Bool,
      delCount store ks = ((ks.dedup).filter (fun k => store k)).length := by
  induction ks with
  | nil => intro store; rfl
  | cons k rest ih =>
    intro store
    rw [delCount, ih (fun x => if x = k then false else store x)]
    by_cases hmem : k ∈ rest
    · rw [List.dedup_cons_of_mem hmem]
      have hkd : k ∈ rest.dedup := List.mem_dedup.mpr hmem
      have hnd : rest.dedup.Nodup := List.nodup_dedup rest
      have hperm : List.Perm rest.dedup (k :: rest.dedup.erase k) :=
        List.perm_cons_erase hkd
      have hknotin : k ∉ rest.dedup.erase k := hnd.not_mem_erase
      have hfe : (rest.dedup.erase k).filter (fun x => if x = k then false else store x)
          = (rest.dedup.erase k).filter (fun x => store x) := by
        refine List.filter_congr ?_
        intro x hx
        have hxk : x ≠ k := fun he => hknotin (he ▸ hx)
        simp [hxk]
      have h1 : ((rest.dedup.filter (fun x => store x))).length
          = ((k :: rest.dedup.erase k).filter (fun x => store x)).length :=
        (hperm.filter _).length_eq
      have h2 : ((rest.dedup.filter (fun x => if x = k then false else store x))).length
          = ((k :: rest.dedup.erase k).filter
              (fun x => if x = k then false else store x)).length :=
        (hperm.filter _).length_eq
      rw [h2, List.filter_cons]
      simp only [if_pos rfl, if_neg, hfe]
      rw [h1, List.filter_cons]
      by_cases hsk : store k
      · simp [hsk, hfe]
        omega
      · simp [hsk, hfe]
    · rw [List.dedup_cons_of_not_mem hmem]
      have hknd : k ∉ rest.dedup := fun hk => hmem (List.mem_dedup.mp hk)
      have hfe : (rest.dedup).filter (fun x => if x = k then false else store x)
          = (rest.dedup).filter (fun x => store x) := by
        refine List.filter_congr ?_
        intro x hx
        have hxk : x ≠ k := fun he => hknd (he ▸ hx)
        simp [hxk]
      rw [hfe, List.filter_cons]
      by_cases hsk : store k
      · simp [hsk]
        omega
      · simp [hsk]

theorem mem_names_addToGroup (acc : List (String × List String))
    (n k m : String) :
    m ∈ (addToGroup acc n k).map Prod.fst ↔ m ∈ acc.map Prod.fst ∨ m = n := by
  induction acc with
  | nil => simp [addToGroup]
  | cons g rest ih =>
    rw [addToGroup]
    by_cases hgn : g.1 = n
    · rw [if_pos hgn]
      simp [hgn]
      tauto
    · rw [if_neg hgn]
      simp [ih]
      tauto

theorem names_nodup_addToGroup (acc : List (String × List String))
    (n k : String) (h : (acc.map Prod.fst).Nodup) :
    ((addToGroup acc n k).map Prod.fst).Nodup := by
  induction acc with
  | nil => simp [addToGroup]
  | cons g rest ih =>
    rw [List.map_cons] at h
    obtain ⟨hg, hrest⟩ := List.nodup_cons.mp h
    rw [addToGroup]
    by_cases hgn : g.1 = n
    · rw [if_pos hgn]
      rw [List.map_cons]
      exact List.nodup_cons.mpr ⟨hg, hrest⟩
    · rw [if_neg hgn]
      rw [List.map_cons, List.nodup_cons]
      refine ⟨?_, ih hrest⟩
      intro hmem
      rcases (mem_names_addToGroup rest n k g.1).mp hmem with hin | heq
      · exact hg hin
      · exact hgn heq

theorem owner_addToGroup (owner : String → String)
    (acc : List (String × List String)) (n k : String) (hown : owner k = n)
    (h : ∀ g ∈ acc, ∀ x ∈ g.2, owner x = g.1) :
    ∀ g ∈ addToGroup acc n k, ∀ x ∈ g.2, owner x = g.1 := by
  induction acc with
  | nil =>
    intro g hg x hx
    rw [addToGroup] at hg
    rw [List.mem_singleton] at hg
    subst hg
    rw [List.mem_singleton] at hx
    subst hx
    exact hown
  | cons g0 rest ih =>
    intro g hg x hx
    rw [addToGroup] at hg
    by_cases hgn : g0.1 = n
    · rw [if_pos hgn] at hg
      rcases List.mem_cons.mp hg with rfl | hgr
      · rcases List.mem_append.mp hx with hx1 | hx2
        · exact h g0 (List.mem_cons_self g0 rest) x hx1
        · rw [List.mem_singleton] at hx2
          subst hx2
          exact hown.trans hgn.symm
      · exact h g (List.mem_cons_of_mem g0 hgr) x hx
    · rw [if_neg hgn] at hg
      rcases List.mem_cons.mp hg with rfl | hgr
      · exact h g (List.mem_cons_self g rest) x hx
      · exact ih (fun g2 hg2 => h g2 (List.mem_cons_of_mem g0 hg2)) g hgr x hx

theorem flat_addToGroup (acc : List (String × List String)) (n k : String) :
    List.Perm ((addToGroup acc n k).flatMap (fun g => g.2))
      ((acc.flatMap (fun g => g.2)) ++ [k]) := by
  induction acc with
  | nil => simp [addToGroup]
  | cons g rest ih =>
    rw [addToGroup]
    by_cases hgn : g.1 = n
    · rw [if_pos hgn]
      rw [List.flatMap_cons, List.flatMap_cons, List.append_assoc, List.append_assoc]
      exact List.Perm.append_left g.2 List.perm_append_comm
    · rw [if_neg hgn]
      rw [List.flatMap_cons, List.flatMap_cons, List.append_assoc]
      exact List.Perm.append_left g.2 ih

theorem groupByNode_props (owner : String → String) (keys : List String) :
    ∀ acc : List (String × List String),
      (∀ g ∈ acc, ∀ x ∈ g.2, owner x = g.1) →
      (acc.map Prod.fst).Nodup →
      (∀ g ∈ keys.foldl (fun acc k => addToGroup acc (owner k) k) acc,
        ∀ x ∈ g.2, owner x = g.1) ∧
      ((keys.foldl (fun acc k => addToGroup acc (owner k) k) acc).map
        Prod.fst).Nodup ∧
      List.Perm
        ((keys.foldl (fun acc k => addToGroup acc (owner k) k) acc).flatMap
          (fun g => g.2))
        ((acc.flatMap (fun g => g.2)) ++ keys) := by
  induction keys with
  | nil =>
    intro acc h1 h2
    exact ⟨h1, h2, by simp⟩
  | cons key rest ih =>
    intro acc h1 h2
    rw [List.foldl_cons]
    obtain ⟨g1, g2, g3⟩ := ih (addToGroup acc (owner key) key)
      (owner_addToGroup owner acc (owner key) key rfl h1)
      (names_nodup_addToGroup acc (owner key) key h2)
    refine ⟨g1, g2, ?_⟩
    refine g3.trans ?_
    refine (List.Perm.append_right rest (flat_addToGroup acc (owner key) key)).trans ?_
    rw [List.append_assoc]
    rfl

theorem pairwise_disjoint_groups (owner : String → String)
    (groups : List (String × List String))
    (h1 : ∀ g ∈ groups, ∀ x ∈ g.2, owner x = g.1)
    (h2 : (groups.map Prod.fst).Nodup) :
    List.Pairwise (fun g₁ g₂ : String × List String => ∀ x ∈ g₁.2, x ∉ g₂.2)
      groups := by
  have hp : groups.Pairwise (fun g₁ g₂ => g₁.1 ≠ g₂.1) := by
    rw [List.Nodup, List.pairwise_map] at h2
    exact h2
  refine List.Pairwise.imp_of_mem ?_ hp
  intro g₁ g₂ hg₁ hg₂ hne x hx₁ hx₂
  exact hne (((h1 g₁ hg₁ x hx₁).symm).trans (h1 g₂ hg₂ x hx₂))

theorem append_dedup_filter_count (p : String → Bool) (A B : List String)
    (hdis : ∀ x ∈ A, x ∉ B) :
    (((A ++ B).dedup).filter p).length
      = ((A.dedup).filter p).length + ((B.dedup).filter p).length := by
  have hnd2 : (A.dedup ++ B.dedup).Nodup :=
    List.nodup_append.mpr ⟨List.nodup_dedup _, List.nodup_dedup _,
      fun a ha hb => hdis a (List.mem_dedup.mp ha) (List.mem_dedup.mp hb)⟩
  have hperm : List.Perm (A ++ B).dedup (A.dedup ++ B.dedup) :=
    (List.perm_ext_iff_of_nodup (List.nodup_dedup _) hnd2).mpr
      (fun a => by simp [List.mem_dedup])
  rw [(hperm.filter p).length_eq, List.filter_append, List.length_append]

theorem sum_delCount_groups (store : String → Bool)
    (groups : List (String × List String))
    (hdis : List.Pairwise (fun g₁ g₂ : String × List String =>
      ∀ x ∈ g₁.2, x ∉ g₂.2) groups) :
    (groups.map (fun g => delCount store g.2)).sum
      = (((groups.flatMap (fun g => g.2)).dedup).filter
          (fun k => store k)).length := by
  induction groups with
  | nil => rfl
  | cons g rest ih =>
    obtain ⟨hg, hrest⟩ := List.pairwise_cons.mp hdis
    rw [List.map_cons, List.sum_cons, List.flatMap_cons, ih hrest, delCount_eq]
    rw [append_dedup_filter_count]
    intro x hx hxB
    obtain ⟨g2, hg2, hxg2⟩ := List.mem_flatMap.mp hxB
    exact hg g2 hg2 x hx hxg2

/-- C7: with tagging enabled, `delete_tag` raises `InvalidKey` whenever
any supplied tag itself contains a brace group; otherwise it builds the
bucket literal for each tag, groups the buckets by owning node, issues
exactly one `del` per node covering that node's buckets (each call's
arguments are owned by its node, the node list has no duplicates, and the
calls' arguments are exactly the buckets), and returns the total number
of buckets actually deleted (the distinct buckets present in the
store). -/
theorem C7_delete_tag (owner : String → String) (store : String → Bool)
    (tags : List String) :
    ((∃ t ∈ tags, tagRegexMatches t = true) →
      delete_tag true owner store tags = .error .invalidKey) ∧
    ((∀ t ∈ tags, tagRegexMatches t = false) →
      delete_tag true owner store tags =
        .ok (some (((tags.map mkBucket).dedup.filter
              (fun b => store b)).length),
          (groupByNode owner (tags.map mkBucket)).map
            (fun g => ⟨g.1, "del", g.2⟩)) ∧
      (∀ c ∈ (groupByNode owner (tags.map mkBucket)).map
          (fun g => (⟨g.1, "del", g.2⟩ : Call)),
        c.method = "del" ∧ ∀ k ∈ c.args, owner k = c.node) ∧
      (((groupByNode owner (tags.map mkBucket)).map
          (fun g => (⟨g.1, "del", g.2⟩ : Call))).map Call.node).Nodup ∧
      List.Perm
        ((groupByNode owner (tags.map mkBucket)).flatMap (fun g => g.2))
        (tags.map mkBucket)) := by
  obtain ⟨p1, p2, p3⟩ := groupByNode_props owner (tags.map mkBucket) []
    (by intro g hg; cases hg) List.nodup_nil
  rw [← groupByNode] at p1 p2 p3
  have hflat : List.Perm
      ((groupByNode owner (tags.map mkBucket)).flatMap (fun g => g.2))
      (tags.map mkBucket) := by
    refine p3.trans ?_
    simp
  constructor
  · intro hex
    rw [delete_tag]
    simp only [Bool.not_true, Bool.false_eq_true, if_false]
    rw [buildBuckets_error tags hex]
  · intro hall
    have hok : delete_tag true owner store tags =
        .ok (some (((groupByNode owner (tags.map mkBucket)).map
              (fun g => delCount store g.2)).sum),
          (groupByNode owner (tags.map mkBucket)).map
            (fun g => ⟨g.1, "del", g.2⟩)) := by
      rw [delete_tag]
      simp only [Bool.not_true, Bool.false_eq_true, if_false]
      rw [buildBuckets_ok tags hall]
    have hsum : ((groupByNode owner (tags.map mkBucket)).map
          (fun g => delCount store g.2)).sum
        = ((tags.map mkBucket).dedup.filter (fun b => store b)).length := by
      rw [sum_delCount_groups store _
        (pairwise_disjoint_groups owner _ p1 p2)]
      rw [((hflat.dedup).filter _).length_eq]
    constructor
    · rw [hok, hsum]
    refine ⟨?_, ?_, hflat⟩
    · intro c hc
      obtain ⟨g, hg, hgc⟩ := List.mem_map.mp hc
      subst hgc
      exact ⟨rfl, fun k hk => p1 g hg k hk⟩
    · rw [List.map_map]
      have hcomp : (Call.node ∘ fun g : String × List String =>
          (⟨g.1, "del", g.2⟩ : Call)) = Prod.fst := rfl
      rw [hcomp]
      exact p2

/-- Witness for C7: two clean tags whose buckets land on two nodes (two
`del` calls, two deletions), and a brace-containing tag that raises. -/
theorem C7_delete_tag_witness :
    delete_tag true
        (fun b => if b = "\x7bt1\x7d" then "n1" else "n2") (fun _ => true)
        ["t1", "t2"]
      = .ok (some 2, [⟨"n1", "del", ["\x7bt1\x7d"]⟩,
                      ⟨"n2", "del", ["\x7bt2\x7d"]⟩]) ∧
    delete_tag true
        (fun b => if b = "\x7bt1\x7d" then "n1" else "n2") (fun _ => true)
        ["\x7bbad\x7d"]
      = .error .invalidKey := by
  have h1 := (C7_delete_tag
    (fun b => if b = "\x7bt1\x7d" then "n1" else "n2") (fun _ => true)
    ["t1", "t2"]).2 (by decide)
  have h2 := (C7_delete_tag
    (fun b => if b = "\x7bt1\x7d" then "n1" else "n2") (fun _ => true)
    ["\x7bbad\x7d"]).1 (by decide)
  exact ⟨h1.1.trans (by decide), h2⟩
